import Mathlib

/-!
Verification of the PostFlow bot core against its specification.

The development shallowly embeds the Python sources:
* `bot/utils/formatting.py` — the text segmenter `split_into_tweets`;
* `bot/services/post_service.py` — the Post Store operations over a
  relational state (posts / threads / scheduled_posts tables);
* `bot/services/scheduler_service.py` and `bot/main.py` — the timer
  registry and startup rehydration;
* `bot/handlers/posts.py` — the weekly-planning day/date mapping and
  time-collection step.

Strings are embedded as `List Char`, Python integers as `Int`/`Nat`,
UTC instants as `Int`, and fallible operations as `Option`-returning
functions.  Database sessions commit atomically: each `session.commit()`
in the source is one state transition here, and a commit that raises
(unique-constraint violation) rolls the whole session back, which is
what `get_session` in `bot/database/database.py` does.
-/

/- ## Python string primitives -/

/-- The characters stripped by Python `str.strip()`. -/
def pyIsSpace (c : Char) : Bool :=
  c == ' ' || c == '\t' || c == '\n' || c == '\r' || c == '\x0b' || c == '\x0c'

/-- Python `s.strip()`. -/
def pyStrip (l : List Char) : List Char :=
  ((l.dropWhile pyIsSpace).reverse.dropWhile pyIsSpace).reverse

/-- Python slice `s[:n]`; a negative `n` counts from the end (clamped at 0). -/
def pyTake (l : List Char) (n : Int) : List Char :=
  if 0 ≤ n then l.take n.toNat else l.take (l.length - (-n).toNat)

/-- Python slice `s[n:]`; a negative `n` counts from the end (clamped at 0). -/
def pyDrop (l : List Char) (n : Int) : List Char :=
  if 0 ≤ n then l.drop n.toNat else l.drop (l.length - (-n).toNat)

/-- Python `s.rfind(sub)`: the greatest index at which `sub` occurs in `l`,
`-1` when it does not occur. -/
def rfind (l sub : List Char) : Int :=
  match ((List.range (l.length + 1)).reverse).find? (fun i => sub.isPrefixOf (l.drop i)) with
  | some i => (i : Int)
  | none => -1

/- ## Segmenter (`split_into_tweets`, bot/utils/formatting.py) -/

/-- Python `max` on two integers (kept as a plain conditional so that concrete
inputs evaluate inside the kernel). -/
def pyMax (a b : Int) : Int := if a < b then b else a

/-- The cut-point selection of `split_into_tweets` (formatting.py lines 82-108).
The source compares indices against `effective_max * 0.6`, `* 0.5`, `* 0.7`
computed in double-precision floating point; here the exact rational
comparisons `5*i > 3*em`, `2*i > em`, `10*i > 7*em` are used.  They coincide
with the double comparisons except that `i > em * 0.7` can differ at exact
ties `10*i = 7*em` for some `em` (e.g. `i = 63, em = 90`), where the double
product rounds just below the integer.  Every theorem below holds for each
branch separately, so none depends on which side such a tie falls on, and the
concrete inputs used in witnesses and counterexamples involve no tie. -/
def choose_split_point (chunk : List Char) (em : Int) : Int :=
  let sentence_end := pyMax (pyMax (rfind chunk ['.', ' ']) (rfind chunk ['!', ' ']))
      (rfind chunk ['?', ' '])
  if 5 * sentence_end > 3 * em then sentence_end + 2
  else
    let paragraph_break := rfind chunk ['\n', '\n']
    if 2 * paragraph_break > em then paragraph_break + 2
    else
      let line_break := rfind chunk ['\n']
      if 2 * line_break > em then line_break + 1
      else
        let space := rfind chunk [' ']
        if 10 * space > 7 * em then space + 1
        else em

/-- The `while remaining:` loop of `split_into_tweets` (lines 74-111), with
explicit fuel: `none` means the fuel was exhausted (the Python loop would
still be running after that many iterations). -/
def splitLoop (em : Int) : Nat → List Char → List (List Char) → Option (List (List Char))
  | _, [], acc => some acc.reverse
  | 0, _ :: _, _ => none
  | fuel + 1, c :: cs, acc =>
    if ((c :: cs).length : Int) ≤ em then some (acc.reverse ++ [c :: cs])
    else
      let sp := choose_split_point (pyTake (c :: cs) em) em
      splitLoop em fuel (pyStrip (pyDrop (c :: cs) sp)) (pyStrip (pyTake (c :: cs) sp) :: acc)

/-- Decimal digit string, fuel-driven so that it reduces in the kernel; the
fuel `n + 1` always suffices since `n` has at most `n + 1` digits. -/
def natToDigitsAux (fuel n : Nat) : List Char :=
  match fuel with
  | 0 => []
  | fuel + 1 =>
    if n < 10 then [Nat.digitChar n]
    else natToDigitsAux fuel (n / 10) ++ [Nat.digitChar (n % 10)]

/-- Decimal digit string of a natural number, Python `str(n)`. -/
def natToDigits (n : Nat) : List Char := natToDigitsAux (n + 1) n

/-- The thread-numbering tag `f"{i}/{total} "` (formatting.py line 118). -/
def numTag (i total : Nat) : List Char :=
  natToDigits i ++ '/' :: (natToDigits total ++ [' '])

/-- The `enumerate(tweets, i)` numbering of formatting.py lines 116-118. -/
def numberFrom (total : Nat) : Nat → List (List Char) → List (List Char)
  | _, [] => []
  | i, t :: rest => (numTag i total ++ t) :: numberFrom total (i + 1) rest

/-- Embedding of `split_into_tweets(content, max_length)` (formatting.py lines 52-121).
`none` reports non-termination of the source loop within `length + 1`
iterations (each productive iteration of the source shortens `remaining`
by at least one character whenever `max_length > 6`). -/
def split_into_tweets (content : List Char) (max_length : Nat) : Option (List (List Char)) :=
  if content.length ≤ max_length then some [content]
  else
    let em : Int := (max_length : Int) - 6
    match splitLoop em (content.length + 1) content [] with
    | none => none
    | some ts => some (if 1 < ts.length then numberFrom ts.length 1 ts else ts)

/-- Inverse of `numberFrom`: drop each chunk's `"i/total "` tag. -/
def stripNumberFrom (total : Nat) : Nat → List (List Char) → List (List Char)
  | _, [] => []
  | i, t :: rest => t.drop (numTag i total).length :: stripNumberFrom total (i + 1) rest

/-- Remove the numbering the segmenter added: the observer used to state the
round-trip property of the specification. -/
def removeNumbering (ts : List (List Char)) : List (List Char) :=
  if 1 < ts.length then stripNumberFrom ts.length 1 ts else ts

/- ## Segmenter lemmas -/

lemma rfind_bounds (l sub : List Char) :
    rfind l sub = -1 ∨ (0 ≤ rfind l sub ∧ rfind l sub + sub.length ≤ l.length) := by
  unfold rfind
  cases h : ((List.range (l.length + 1)).reverse).find? (fun i => sub.isPrefixOf (l.drop i)) with
  | none => simp
  | some i =>
    simp only [h]
    right
    have hp : sub.isPrefixOf (l.drop i) = true :=
      List.find?_some (p := fun i => sub.isPrefixOf (l.drop i)) h
    have hpre : sub <+: l.drop i := List.isPrefixOf_iff_prefix.mp hp
    have hle : sub.length ≤ (l.drop i).length := hpre.length_le
    have hi : i < l.length + 1 :=
      List.mem_range.mp (List.mem_reverse.mp (List.mem_of_find?_eq_some h))
    rw [List.length_drop] at hle
    constructor
    · exact Int.natCast_nonneg i
    · omega

lemma pyTake_append_pyDrop (l : List Char) (n : Int) : pyTake l n ++ pyDrop l n = l := by
  unfold pyTake pyDrop
  split <;> exact List.take_append_drop _ _

lemma length_pyTake_le (l : List Char) (n : Int) (h : 0 ≤ n) :
    ((pyTake l n).length : Int) ≤ n := by
  unfold pyTake
  rw [if_pos h, List.length_take]
  push_cast
  omega

lemma length_pyDrop (l : List Char) (n : Int) (h : 0 ≤ n) :
    (pyDrop l n).length = l.length - n.toNat := by
  unfold pyDrop
  rw [if_pos h, List.length_drop]

lemma length_pyStrip_le (l : List Char) : (pyStrip l).length ≤ l.length := by
  unfold pyStrip
  have h1 := (List.dropWhile_sublist (l := l) pyIsSpace).length_le
  have h2 := (List.dropWhile_sublist (l := (l.dropWhile pyIsSpace).reverse) pyIsSpace).length_le
  simp only [List.length_reverse] at *
  omega

lemma filter_dropWhile_pyIsSpace (l : List Char) :
    (l.dropWhile pyIsSpace).filter (fun c => !pyIsSpace c) =
      l.filter (fun c => !pyIsSpace c) := by
  induction l with
  | nil => rfl
  | cons c cs ih =>
    simp only [List.dropWhile_cons, List.filter_cons]
    by_cases h : pyIsSpace c <;> simp [h, ih]

lemma filter_pyStrip (l : List Char) :
    (pyStrip l).filter (fun c => !pyIsSpace c) = l.filter (fun c => !pyIsSpace c) := by
  unfold pyStrip
  rw [List.filter_reverse, filter_dropWhile_pyIsSpace, List.filter_reverse,
    List.reverse_reverse, filter_dropWhile_pyIsSpace]

lemma choose_split_point_bounds (chunk : List Char) (em : Int)
    (hem : 1 ≤ em) (hlen : (chunk.length : Int) ≤ em) :
    1 ≤ choose_split_point chunk em ∧ choose_split_point chunk em ≤ em := by
  have h1 := rfind_bounds chunk ['.', ' ']
  have h2 := rfind_bounds chunk ['!', ' ']
  have h3 := rfind_bounds chunk ['?', ' ']
  have h4 := rfind_bounds chunk ['\n', '\n']
  have h5 := rfind_bounds chunk ['\n']
  have h6 := rfind_bounds chunk [' ']
  simp only [List.length_cons, List.length_nil] at h1 h2 h3 h4 h5 h6
  simp only [choose_split_point, pyMax]
  split_ifs <;> push_cast at * <;> omega

/-- With a positive body budget, every iteration of the split loop removes at
least one character, so fuel equal to the remaining length suffices. -/
lemma splitLoop_isSome (em : Int) (hem : 1 ≤ em) :
    ∀ (fuel : Nat) (r : List Char) (acc : List (List Char)),
      r.length ≤ fuel → (splitLoop em fuel r acc).isSome := by
  intro fuel
  induction fuel with
  | zero =>
    intro r acc h
    cases r with
    | nil => simp [splitLoop]
    | cons c cs => simp at h
  | succ n ih =>
    intro r acc h
    cases r with
    | nil => simp [splitLoop]
    | cons c cs =>
      rw [splitLoop]
      split
      · simp
      · apply ih
        have hchunk : ((pyTake (c :: cs) em).length : Int) ≤ em :=
          length_pyTake_le _ _ (by omega)
        have hsp := choose_split_point_bounds (pyTake (c :: cs) em) em hem hchunk
        have hdrop : (pyDrop (c :: cs) (choose_split_point (pyTake (c :: cs) em) em)).length
            = (c :: cs).length - (choose_split_point (pyTake (c :: cs) em) em).toNat :=
          length_pyDrop _ _ (by omega)
        have hstrip := length_pyStrip_le
          (pyDrop (c :: cs) (choose_split_point (pyTake (c :: cs) em) em))
        simp only [List.length_cons] at *
        omega

/-- Every chunk body produced by the split loop has length at most
`effective_max`. -/
lemma splitLoop_bodies_le (em : Int) (hem : 1 ≤ em) :
    ∀ (fuel : Nat) (r : List Char) (acc : List (List Char)) (ts : List (List Char)),
      (∀ b ∈ acc, (b.length : Int) ≤ em) →
      splitLoop em fuel r acc = some ts →
      ∀ t ∈ ts, (t.length : Int) ≤ em := by
  intro fuel
  induction fuel with
  | zero =>
    intro r acc ts hacc heq
    cases r with
    | nil =>
      simp only [splitLoop, Option.some.injEq] at heq
      subst heq
      intro t ht
      exact hacc t (List.mem_reverse.mp ht)
    | cons c cs => simp [splitLoop] at heq
  | succ n ih =>
    intro r acc ts hacc heq
    cases r with
    | nil =>
      simp only [splitLoop, Option.some.injEq] at heq
      subst heq
      intro t ht
      exact hacc t (List.mem_reverse.mp ht)
    | cons c cs =>
      rw [splitLoop] at heq
      split at heq
      · rename_i hshort
        simp only [Option.some.injEq] at heq
        subst heq
        intro t ht
        rcases List.mem_append.mp ht with h | h
        · exact hacc t (List.mem_reverse.mp h)
        · simp only [List.mem_singleton] at h
          subst h
          exact hshort
      · refine ih _ _ _ ?_ heq
        intro b hb
        rcases List.mem_cons.mp hb with h | h
        · subst h
          have hchunk : ((pyTake (c :: cs) em).length : Int) ≤ em :=
            length_pyTake_le _ _ (by omega)
          have hsp := choose_split_point_bounds (pyTake (c :: cs) em) em hem hchunk
          have htake : ((pyTake (c :: cs) (choose_split_point (pyTake (c :: cs) em) em)).length
              : Int) ≤ choose_split_point (pyTake (c :: cs) em) em :=
            length_pyTake_le _ _ (by omega)
          have hstrip := length_pyStrip_le
            (pyTake (c :: cs) (choose_split_point (pyTake (c :: cs) em) em))
          omega
        · exact hacc b h

/-- The split loop never loses, duplicates or reorders a non-whitespace
character: stripping happens only at cut points. -/
lemma splitLoop_filter (em : Int) :
    ∀ (fuel : Nat) (r : List Char) (acc : List (List Char)) (ts : List (List Char)),
      splitLoop em fuel r acc = some ts →
      ts.flatten.filter (fun c => !pyIsSpace c) =
        (acc.reverse.flatten ++ r).filter (fun c => !pyIsSpace c) := by
  intro fuel
  induction fuel with
  | zero =>
    intro r acc ts heq
    cases r with
    | nil =>
      simp only [splitLoop, Option.some.injEq] at heq
      subst heq
      simp
    | cons c cs => simp [splitLoop] at heq
  | succ n ih =>
    intro r acc ts heq
    cases r with
    | nil =>
      simp only [splitLoop, Option.some.injEq] at heq
      subst heq
      simp
    | cons c cs =>
      rw [splitLoop] at heq
      split at heq
      · simp only [Option.some.injEq] at heq
        subst heq
        simp [List.flatten_append]
      · have h := ih _ _ _ heq
        rw [h]
        simp only [List.reverse_cons, List.flatten_append, List.flatten_cons,
          List.flatten_nil, List.append_nil, List.append_assoc]
        rw [List.filter_append, List.filter_append, List.filter_append,
          filter_pyStrip, filter_pyStrip, ← List.filter_append,
          pyTake_append_pyDrop]

lemma natToDigits_length_le (n : Nat) (h : n ≤ 99) : (natToDigits n).length ≤ 2 := by
  rw [natToDigits, natToDigitsAux]
  split
  · simp
  · rename_i h10
    obtain ⟨m, hm⟩ : ∃ m, n = m + 1 := ⟨n - 1, by omega⟩
    subst hm
    rw [natToDigitsAux, if_pos (show (m + 1) / 10 < 10 by omega)]
    simp

lemma numTag_length_le (i total : Nat) (hi : i ≤ 99) (ht : total ≤ 99) :
    (numTag i total).length ≤ 6 := by
  have h1 := natToDigits_length_le i hi
  have h2 := natToDigits_length_le total ht
  simp only [numTag, List.length_append, List.length_cons, List.length_nil]
  omega

lemma numberFrom_length (total : Nat) :
    ∀ (i : Nat) (l : List (List Char)), (numberFrom total i l).length = l.length := by
  intro i l
  induction l generalizing i with
  | nil => rfl
  | cons t rest ih => simp [numberFrom, ih]

lemma stripNumberFrom_numberFrom (total : Nat) :
    ∀ (i : Nat) (l : List (List Char)),
      stripNumberFrom total i (numberFrom total i l) = l := by
  intro i l
  induction l generalizing i with
  | nil => rfl
  | cons t rest ih =>
    simp only [numberFrom, stripNumberFrom, List.cons.injEq]
    exact ⟨List.drop_left _ _, ih (i + 1)⟩

lemma numberFrom_mem (total : Nat) :
    ∀ (i : Nat) (l : List (List Char)) (t : List Char), t ∈ numberFrom total i l →
      ∃ j b, i ≤ j ∧ j < i + l.length ∧ b ∈ l ∧ t = numTag j total ++ b := by
  intro i l
  induction l generalizing i with
  | nil => intro t ht; simp [numberFrom] at ht
  | cons x rest ih =>
    intro t ht
    simp only [numberFrom] at ht
    rcases List.mem_cons.mp ht with h | h
    · exact ⟨i, x, le_refl _, by simp, List.mem_cons_self _ _, h⟩
    · obtain ⟨j, b, hij, hjl, hb, hteq⟩ := ih (i + 1) t h
      refine ⟨j, b, by omega, ?_, List.mem_cons_of_mem _ hb, hteq⟩
      simp only [List.length_cons]
      omega

/- ## Claim theorems: segmenter -/

/-- C10: `split_into_tweets` terminates whenever `max_length > 6`: with
`effective_max = max_length - 6 ≥ 1` every loop iteration removes at least one
character from the remaining text, so `content.length + 1` iterations suffice
and the embedded loop produces a result instead of running out of fuel. -/
theorem split_into_tweets_terminates (content : List Char) (max_length : Nat)
    (h : 6 < max_length) : (split_into_tweets content max_length).isSome := by
  simp only [split_into_tweets]
  split
  · simp
  · have hem : (1 : Int) ≤ (max_length : Int) - 6 := by omega
    have hs := splitLoop_isSome ((max_length : Int) - 6) hem (content.length + 1) content []
      (by omega)
    obtain ⟨ts, hts⟩ := Option.isSome_iff_exists.mp hs
    rw [hts]
    simp

theorem split_into_tweets_terminates_witness :
    (split_into_tweets (List.replicate 10 'A') 7).isSome :=
  split_into_tweets_terminates (List.replicate 10 'A') 7 (by decide)

/-- C1 counterexample: once the text needs 100 chunks the `"i/total "` tag no
longer fits the reserved 6-character budget, so a returned chunk exceeds
`max_length`: at `max_length = 7` on 100 characters chunk 10 is `"10/100 A"`,
8 characters long. -/
theorem split_into_tweets_length_cap_cex :
    7 < (List.replicate 100 'A' : List Char).length ∧
    ¬ (∀ t ∈ (split_into_tweets (List.replicate 100 'A') 7).getD [], t.length ≤ 7) := by
  decide

/-- C1 (amended): every chunk body is cut to at most
`effectiveMax = max_length - 6`, and every returned chunk, numbering tag
included, has length at most `max_length` provided the thread has at most 99
chunks — the reserved 6-character budget only covers tags whose two numbers
have at most two digits each. -/
theorem split_into_tweets_length_cap (content : List Char) (max_length : Nat)
    (ts : List (List Char)) (h6 : 6 < max_length) (hlong : max_length < content.length)
    (heq : split_into_tweets content max_length = some ts) :
    (∀ b ∈ removeNumbering ts, b.length ≤ max_length - 6) ∧
    (ts.length ≤ 99 → ∀ t ∈ ts, t.length ≤ max_length) := by
  have hem : (1 : Int) ≤ (max_length : Int) - 6 := by omega
  simp only [split_into_tweets] at heq
  rw [if_neg (by omega)] at heq
  cases hsl : splitLoop ((max_length : Int) - 6) (content.length + 1) content [] with
  | none => rw [hsl] at heq; exact absurd heq (by simp)
  | some raw =>
    rw [hsl] at heq
    simp only [Option.some.injEq] at heq
    have hbodies : ∀ b ∈ raw, (b.length : Int) ≤ (max_length : Int) - 6 :=
      splitLoop_bodies_le _ hem _ content [] raw (by simp) hsl
    by_cases hmulti : 1 < raw.length
    · rw [if_pos hmulti] at heq
      subst heq
      have hlen : (numberFrom raw.length 1 raw).length = raw.length :=
        numberFrom_length _ _ _
      constructor
      · intro b hb
        rw [removeNumbering, if_pos (by omega), hlen, stripNumberFrom_numberFrom] at hb
        have := hbodies b hb
        omega
      · intro h99 t ht
        rw [hlen] at h99
        obtain ⟨j, b, hj1, hj2, hb, hteq⟩ := numberFrom_mem raw.length 1 raw t ht
        have htag : (numTag j raw.length).length ≤ 6 :=
          numTag_length_le j raw.length (by omega) h99
        have hbl := hbodies b hb
        rw [hteq, List.length_append]
        omega
    · rw [if_neg hmulti] at heq
      subst heq
      constructor
      · intro b hb
        rw [removeNumbering, if_neg hmulti] at hb
        have := hbodies b hb
        omega
      · intro _ t ht
        have := hbodies t ht
        omega

theorem split_into_tweets_length_cap_witness :
    ((split_into_tweets (List.replicate 20 'A') 10).getD []).all
      (fun t => decide (t.length ≤ 10)) = true := by
  rw [List.all_eq_true]
  intro t ht
  have h := split_into_tweets_length_cap (List.replicate 20 'A') 10
    ((split_into_tweets (List.replicate 20 'A') 10).getD [])
    (by decide) (by decide) (by decide)
  exact decide_eq_true (h.2 (by decide) t ht)

/-- C7: concatenating the chunks with their `"i/total "` numbering removed
yields the original text up to whitespace stripped at the cut points: the
non-whitespace characters are exactly those of the input, in order. -/
theorem split_into_tweets_roundtrip (content : List Char) (max_length : Nat)
    (ts : List (List Char)) (hlong : max_length < content.length)
    (heq : split_into_tweets content max_length = some ts) :
    (removeNumbering ts).flatten.filter (fun c => !pyIsSpace c) =
      content.filter (fun c => !pyIsSpace c) := by
  simp only [split_into_tweets] at heq
  rw [if_neg (by omega)] at heq
  cases hsl : splitLoop ((max_length : Int) - 6) (content.length + 1) content [] with
  | none => rw [hsl] at heq; exact absurd heq (by simp)
  | some raw =>
    rw [hsl] at heq
    simp only [Option.some.injEq] at heq
    have hfil := splitLoop_filter ((max_length : Int) - 6) (content.length + 1) content [] raw hsl
    simp only [List.reverse_nil, List.flatten_nil, List.nil_append] at hfil
    have hrm : removeNumbering ts = raw := by
      by_cases hmulti : 1 < raw.length
      · rw [if_pos hmulti] at heq
        subst heq
        have hlen : (numberFrom raw.length 1 raw).length = raw.length :=
          numberFrom_length _ _ _
        rw [removeNumbering, if_pos (by omega), hlen, stripNumberFrom_numberFrom]
      · rw [if_neg hmulti] at heq
        subst heq
        rw [removeNumbering, if_neg hmulti]
    rw [hrm, hfil]

theorem split_into_tweets_roundtrip_witness :
    (removeNumbering ((split_into_tweets ("Hello world town".toList) 10).getD [])).flatten.filter
      (fun c => !pyIsSpace c) = (("Hello world town".toList).filter (fun c => !pyIsSpace c)) :=
  split_into_tweets_roundtrip ("Hello world town".toList) 10 _ (by decide) (by decide)

/- ## Post Store data model (bot/database/models.py) -/

/-- Model of `PostStatus` (models.py lines 14-20). -/
inductive PostStatus
  | draft
  | scheduled
  | published
  | failed
  | cancelled
deriving DecidableEq, Repr

/-- The `ScheduledPost.status` values (models.py line 81). -/
inductive SchedStatus
  | pending
  | completed
  | cancelled
  | failed
deriving DecidableEq, Repr

/-- A row of the `posts` table (models.py lines 23-35). -/
structure PostRec where
  id : Nat
  content : List Char
  created_by_ai : Bool
  ai_prompt : Option (List Char)
  status : PostStatus
  published_at : Option Int
  twitter_id : Option (List Char)
  error_message : Option (List Char)
deriving DecidableEq, Repr

/-- A row of the `threads` table (models.py lines 55-64). -/
structure ThreadRec where
  post_id : Nat
  tweet_index : Nat
  content : List Char
deriving DecidableEq, Repr

/-- A row of the `scheduled_posts` table (models.py lines 73-83); `post_id`
carries a UNIQUE constraint (line 78). -/
structure SchedRec where
  post_id : Nat
  scheduled_for : Int
  job_id : Option (List Char)
  status : SchedStatus
deriving DecidableEq, Repr

/-- The committed database state.  `next_post_id` models the autoincrement
primary key of `posts`. -/
structure DB where
  posts : List PostRec
  threads : List ThreadRec
  scheduled : List SchedRec
  next_post_id : Nat
deriving DecidableEq, Repr

/-- Python truthiness of an optional string (`if twitter_id:` style tests):
false for `None` and for the empty string. -/
def pyTruthy (o : Option (List Char)) : Bool :=
  match o with
  | none => false
  | some s => !s.isEmpty

/-- Model of `query.filter(...).first()` followed by a mutation of the returned row:
only the first matching row is changed. -/
def updateFirstBy {α : Type} (p : α → Bool) (f : α → α) : List α → List α
  | [] => []
  | x :: rest => if p x then f x :: rest else x :: updateFirstBy p f rest

namespace PostService

/-- The chunk list a post's content produces, `split_into_tweets(content)`
at the default `MAX_TWEET_LENGTH = 280` (config.py line 37).  Since
`280 > 6` the loop always terminates, so the default is never taken. -/
def tweetsOf (content : List Char) : List (List Char) :=
  (split_into_tweets content 280).getD [content]

/-- The `Thread` rows built by `enumerate(tweets, 1)` (post_service.py
lines 51-57). -/
def threadRows (pid : Nat) : Nat → List (List Char) → List ThreadRec
  | _, [] => []
  | i, t :: rest => ⟨pid, i, t⟩ :: threadRows pid (i + 1) rest

/-- Result of `create_post`: the sequence of states committed by the
operation's `session.commit()` calls, in order, plus the final state and the
created post id. -/
structure CreateResult where
  commits : List DB
  final : DB
  created : Option Nat
deriving DecidableEq, Repr

/-- Embedding of `PostService.create_post` (post_service.py lines 19-75).  The source
commits the `Post` row alone first (line 45) and, when the content splits
into more than one chunk, commits the `Thread` rows in a second transaction
(line 58); both committed states are recorded in `commits`. -/
def create_post (db : DB) (content : List Char) (created_by_ai : Bool)
    (ai_prompt : Option (List Char)) : CreateResult :=
  let pid := db.next_post_id
  let post : PostRec := ⟨pid, content, created_by_ai, ai_prompt, .draft, none, none, none⟩
  let db1 : DB := { db with posts := db.posts ++ [post], next_post_id := pid + 1 }
  let tweets := tweetsOf content
  if 1 < tweets.length then
    let db2 : DB := { db1 with threads := db1.threads ++ threadRows pid 1 tweets }
    ⟨[db1, db2], db2, some pid⟩
  else
    ⟨[db1], db1, some pid⟩

/-- The row mutation performed by `update_post_status` on the found post
(post_service.py lines 127-133): set the status, store `twitter_id` and
`error_message` only when truthy, stamp `published_at` when the new status is
`PUBLISHED`; nothing is ever cleared. -/
def applyStatusUpdate (status : PostStatus) (twitter_id error_message : Option (List Char))
    (now : Int) (p : PostRec) : PostRec :=
  let p1 := { p with status := status }
  let p2 := if pyTruthy twitter_id then { p1 with twitter_id := twitter_id } else p1
  let p3 := if pyTruthy error_message then { p2 with error_message := error_message } else p2
  if status == .published then { p3 with published_at := some now } else p3

/-- Embedding of `PostService.update_post_status` (post_service.py lines 102-141). -/
def update_post_status (db : DB) (post_id : Nat) (status : PostStatus)
    (twitter_id : Option (List Char)) (error_message : Option (List Char))
    (now : Int) : DB × Bool :=
  match db.posts.find? (fun p => p.id == post_id) with
  | none => (db, false)
  | some _ =>
    ({ db with posts := (updateFirstBy (fun p => p.id == post_id)
        (applyStatusUpdate status twitter_id error_message now) db.posts) }, true)

/-- Embedding of `PostService.schedule_post` (post_service.py lines 292-337).  The session
sets `post.status = SCHEDULED`, adds the `ScheduledPost(pending)` row and
commits once; when a row for this post already exists the UNIQUE(post_id)
constraint (models.py line 78) makes that commit raise `IntegrityError`, and
`get_session` (database.py lines 57-64) rolls the whole session back, so the
`except` branch returns `None` with the database unchanged. -/
def schedule_post (db : DB) (post_id : Nat) (scheduled_for : Int)
    (job_id : List Char) : DB × Option SchedRec :=
  match db.posts.find? (fun p => p.id == post_id) with
  | none => (db, none)
  | some _ =>
    if db.scheduled.any (fun r => r.post_id == post_id) then
      (db, none)
    else
      let row : SchedRec := ⟨post_id, scheduled_for, some job_id, .pending⟩
      ({ db with
          posts := (updateFirstBy (fun p => p.id == post_id)
            (fun p => { p with status := .scheduled }) db.posts),
          scheduled := db.scheduled ++ [row] }, some row)

/-- Embedding of `PostService.update_scheduled_job_id` (post_service.py lines 429-456). -/
def update_scheduled_job_id (db : DB) (post_id : Nat) (job_id : List Char) :
    DB × Bool :=
  if db.scheduled.any (fun r => r.post_id == post_id) then
    ({ db with scheduled := (updateFirstBy (fun r => r.post_id == post_id)
        (fun r => { r with job_id := some job_id }) db.scheduled) }, true)
  else (db, false)

end PostService

/-- The status-field invariant of the specification (§3 Data model):
`published_at` is set iff the post is Published, `error_message` is set iff
it is Failed. -/
def statusInv (p : PostRec) : Prop :=
  (p.published_at.isSome = true ↔ p.status = .published) ∧
  (p.error_message.isSome = true ↔ p.status = .failed)

instance (p : PostRec) : Decidable (statusInv p) := by
  unfold statusInv
  infer_instance

/- ## Post Store lemmas -/

lemma mem_updateFirstBy {α : Type} (p : α → Bool) (f : α → α) :
    ∀ (l : List α) (y : α), y ∈ updateFirstBy p f l →
      y ∈ l ∨ ∃ x ∈ l, p x = true ∧ y = f x := by
  intro l
  induction l with
  | nil => intro y hy; simp [updateFirstBy] at hy
  | cons a as ih =>
    intro y hy
    rw [updateFirstBy] at hy
    by_cases ha : p a = true
    · rw [if_pos ha] at hy
      rcases List.mem_cons.mp hy with h | h
      · exact Or.inr ⟨a, List.mem_cons_self _ _, ha, h⟩
      · exact Or.inl (List.mem_cons_of_mem _ h)
    · rw [if_neg ha] at hy
      rcases List.mem_cons.mp hy with h | h
      · exact Or.inl (h ▸ List.mem_cons_self _ _)
      · rcases ih y h with h2 | ⟨x, hx, hpx, hyx⟩
        · exact Or.inl (List.mem_cons_of_mem _ h2)
        · exact Or.inr ⟨x, List.mem_cons_of_mem _ hx, hpx, hyx⟩

lemma find?_updateFirstBy {α : Type} (p : α → Bool) (f : α → α)
    (hf : ∀ y, p y = true → p (f y) = true) :
    ∀ (l : List α) (x : α), l.find? p = some x →
      (updateFirstBy p f l).find? p = some (f x) := by
  intro l
  induction l with
  | nil => intro x hx; simp at hx
  | cons a as ih =>
    intro x hx
    rw [List.find?_cons] at hx
    by_cases ha : p a = true
    · rw [ha] at hx
      simp only [Option.some.injEq] at hx
      subst hx
      rw [updateFirstBy, if_pos ha, List.find?_cons, hf a ha]
    · rw [Bool.not_eq_true] at ha
      rw [ha] at hx
      rw [updateFirstBy, if_neg (by simp [ha]), List.find?_cons, ha]
      exact ih x hx

lemma applyStatusUpdate_published_at (status : PostStatus) (tid em : Option (List Char))
    (now : Int) (p : PostRec) :
    (PostService.applyStatusUpdate status tid em now p).published_at =
      if status = .published then some now else p.published_at := by
  simp only [PostService.applyStatusUpdate, beq_iff_eq]
  split_ifs <;> rfl

lemma applyStatusUpdate_error_message (status : PostStatus) (tid em : Option (List Char))
    (now : Int) (p : PostRec) :
    (PostService.applyStatusUpdate status tid em now p).error_message =
      if pyTruthy em then em else p.error_message := by
  simp only [PostService.applyStatusUpdate]
  split_ifs <;> rfl

lemma applyStatusUpdate_status (status : PostStatus) (tid em : Option (List Char))
    (now : Int) (p : PostRec) :
    (PostService.applyStatusUpdate status tid em now p).status = status := by
  simp only [PostService.applyStatusUpdate]
  split_ifs <;> rfl

lemma pyTruthy_isSome (o : Option (List Char)) (h : pyTruthy o = true) :
    o.isSome = true := by
  cases o with
  | none => simp [pyTruthy] at h
  | some s => rfl

/- ## Claim theorems: Post Store -/

/-- C2: scheduling a post that already has a ScheduledPost row fails — the
UNIQUE(post_id) commit failure rolls the session back — returning no row,
leaving the database (in particular the post's status and the row count)
unchanged; when no row exists and the post is found, the result is `some` of
the new pending row, exactly one ScheduledPost row for the post exists
afterwards, and the post's status becomes Scheduled. -/
theorem schedule_post_one_to_one (db : DB) (pid : Nat) (t : Int) (jid : List Char) :
    (db.scheduled.any (fun r => r.post_id == pid) = true →
      PostService.schedule_post db pid t jid = (db, none)) ∧
    (db.scheduled.any (fun r => r.post_id == pid) = false →
      ∀ p, db.posts.find? (fun q => q.id == pid) = some p →
        (PostService.schedule_post db pid t jid).2 = some ⟨pid, t, some jid, .pending⟩ ∧
        ((PostService.schedule_post db pid t jid).1.scheduled.filter
            (fun r => r.post_id == pid)).length = 1 ∧
        (PostService.schedule_post db pid t jid).1.posts.find? (fun q => q.id == pid)
          = some { p with status := .scheduled }) := by
  constructor
  · intro hany
    unfold PostService.schedule_post
    cases hfind : db.posts.find? (fun p => p.id == pid) with
    | none => rfl
    | some q => simp [hany]
  · intro hany p hfind
    simp only [PostService.schedule_post, hfind]
    rw [if_neg (by simp [hany])]
    refine ⟨rfl, ?_, ?_⟩
    · have hnil : db.scheduled.filter (fun r => r.post_id == pid) = [] := by
        rw [List.filter_eq_nil_iff]
        intro r hr
        exact List.any_eq_false.mp hany r hr
      simp only [List.filter_append, hnil, List.nil_append]
      simp
    · exact find?_updateFirstBy (fun q => q.id == pid)
        (fun q => { q with status := PostStatus.scheduled }) (fun y hy => hy) db.posts p hfind

theorem schedule_post_one_to_one_witness :
    (PostService.schedule_post
        ⟨[⟨0, ['x'], false, none, .draft, none, none, none⟩], [],
          [⟨0, 50, some ['j'], .pending⟩], 1⟩ 0 100 ['k'])
      = (⟨[⟨0, ['x'], false, none, .draft, none, none, none⟩], [],
          [⟨0, 50, some ['j'], .pending⟩], 1⟩, none) ∧
    (PostService.schedule_post
        ⟨[⟨1, ['y'], false, none, .draft, none, none, none⟩], [], [], 2⟩ 1 100 ['k']).1.posts.find?
        (fun q => q.id == 1)
      = some ⟨1, ['y'], false, none, .scheduled, none, none, none⟩ := by
  constructor
  · exact (schedule_post_one_to_one
      ⟨[⟨0, ['x'], false, none, .draft, none, none, none⟩], [],
        [⟨0, 50, some ['j'], .pending⟩], 1⟩ 0 100 ['k']).1 (by decide)
  · exact ((schedule_post_one_to_one
      ⟨[⟨1, ['y'], false, none, .draft, none, none, none⟩], [], [], 2⟩ 1 100 ['k']).2
      (by decide) ⟨1, ['y'], false, none, .draft, none, none, none⟩ (by decide)).2.2

set_option maxRecDepth 20000 in
/-- C3 counterexample: `create_post` is not atomic.  On a 300-character
content (two chunks at the 280 limit) the operation commits twice, and the
state committed first — which a crash before the second commit would leave
durable — contains the Post but none of its Thread rows: it differs from both
the initial and the final state. -/
theorem create_post_atomic_cex :
    ∃ s ∈ (PostService.create_post ⟨[], [], [], 0⟩ (List.replicate 300 'A') false none).commits,
      s ≠ (⟨[], [], [], 0⟩ : DB) ∧
      s ≠ (PostService.create_post ⟨[], [], [], 0⟩ (List.replicate 300 'A') false none).final := by
  decide

/-- C3 (amended): `create_post` persists the Post row in a first transaction
and, when the content needs several chunks, the Thread rows in a second one.
After the full operation the Post and all of its Thread rows are present, but
the intermediate committed state contains the Post with no Thread rows, so a
crash between the two commits leaves a multi-chunk Post without segments. -/
theorem create_post_two_commits (db : DB) (content : List Char) (ai : Bool)
    (prompt : Option (List Char)) (h : 1 < (PostService.tweetsOf content).length) :
    ∃ mid, (PostService.create_post db content ai prompt).commits
        = [mid, (PostService.create_post db content ai prompt).final] ∧
      mid.posts = db.posts ++ [⟨db.next_post_id, content, ai, prompt, .draft, none, none, none⟩] ∧
      mid.threads = db.threads ∧
      (PostService.create_post db content ai prompt).final.posts = mid.posts ∧
      (PostService.create_post db content ai prompt).final.threads
        = db.threads ++ PostService.threadRows db.next_post_id 1 (PostService.tweetsOf content) := by
  simp only [PostService.create_post]
  rw [if_pos h]
  exact ⟨_, rfl, rfl, rfl, rfl, rfl⟩

set_option maxRecDepth 20000 in
theorem create_post_two_commits_witness :
    (PostService.create_post ⟨[], [], [], 0⟩ (List.replicate 300 'A') false none).commits.length
      = 2 := by
  obtain ⟨mid, hc, -, -, -, -⟩ :=
    create_post_two_commits ⟨[], [], [], 0⟩ (List.replicate 300 'A') false none (by decide)
  rw [hc]
  rfl

/-- C4 counterexample: `update_post_status` does not preserve the invariant
"`published_at` set iff Published, `error_message` set iff Failed": moving a
Published post (satisfying the invariant) to Failed stores the error message
but never clears `published_at`, so the updated post has `published_at` set
while its status is Failed. -/
theorem update_post_status_invariant_cex :
    (∀ p ∈ ([⟨0, ['x'], false, none, .published, some 5, none, none⟩] : List PostRec),
      statusInv p) ∧
    ¬ (∀ p ∈ (PostService.update_post_status
        ⟨[⟨0, ['x'], false, none, .published, some 5, none, none⟩], [], [], 1⟩
        0 .failed none (some ['e']) 6).1.posts, statusInv p) := by
  decide

/-- C4 (amended): `update_post_status` preserves the status-field invariant
only on posts that have neither `published_at` nor `error_message` set (so in
particular are not Published or Failed), and only when an error message is
supplied (non-empty) exactly for a transition to Failed; it sets
`published_at` for Published and `error_message` for Failed but never clears
the stale field on a transition out of those statuses (counterexample). -/
theorem update_post_status_invariant (db : DB) (pid : Nat) (status : PostStatus)
    (tid em : Option (List Char)) (now : Int)
    (hclean : ∀ p ∈ db.posts, p.published_at = none ∧ p.error_message = none ∧
      p.status ≠ .published ∧ p.status ≠ .failed)
    (hmsg : pyTruthy em = true ↔ status = .failed) :
    ∀ p ∈ (PostService.update_post_status db pid status tid em now).1.posts, statusInv p := by
  have hbase : ∀ p ∈ db.posts, statusInv p := by
    intro p hp
    obtain ⟨h1, h2, h3, h4⟩ := hclean p hp
    exact ⟨by simp [h1, h3], by simp [h2, h4]⟩
  intro p hp
  cases hfind : db.posts.find? (fun q => q.id == pid) with
  | none =>
    simp only [PostService.update_post_status, hfind] at hp
    exact hbase p hp
  | some q =>
    simp only [PostService.update_post_status, hfind] at hp
    rcases mem_updateFirstBy _ _ db.posts p hp with h | ⟨x, hx, -, rfl⟩
    · exact hbase p h
    · obtain ⟨h1, h2, -, -⟩ := hclean x hx
      constructor
      · rw [applyStatusUpdate_published_at, applyStatusUpdate_status]
        by_cases hs : status = .published
        · simp [hs]
        · simp [hs, h1]
      · rw [applyStatusUpdate_error_message, applyStatusUpdate_status]
        by_cases he : pyTruthy em = true
        · rw [if_pos he]
          simp [pyTruthy_isSome em he, hmsg.mp he]
        · rw [if_neg he]
          have : status ≠ .failed := fun hcon => he (hmsg.mpr hcon)
          simp [h2, this]

theorem update_post_status_invariant_witness :
    (PostService.update_post_status
        ⟨[⟨0, ['x'], false, none, .draft, none, none, none⟩], [], [], 1⟩
        0 .published (some ['t']) none 6).1.posts.all
      (fun p => decide (statusInv p)) = true := by
  rw [List.all_eq_true]
  intro p hp
  exact decide_eq_true (update_post_status_invariant
    ⟨[⟨0, ['x'], false, none, .draft, none, none, none⟩], [], [], 1⟩
    0 .published (some ['t']) none 6 (by decide) (by decide) p hp)

/- ## Scheduling Layer (bot/services/scheduler_service.py, bot/main.py) -/

/-- The APScheduler job store: job id mapped to its (UTC) fire instant.
`add_job(..., replace_existing=True)` (scheduler_service.py lines 58-65)
replaces the timer carrying the same id instead of adding a second one. -/
abbrev Registry := List (List Char × Int)

/-- Register a timer, replacing any existing timer with the same id. -/
def insertReplace (reg : Registry) (jid : List Char) (t : Int) : Registry :=
  if reg.any (fun e => e.1 == jid) then
    reg.map (fun e => if e.1 == jid then (jid, t) else e)
  else reg ++ [(jid, t)]

/-- The fire instant registered for a job id, if any. -/
def assocLookup (reg : Registry) (jid : List Char) : Option Int :=
  match reg.find? (fun e => e.1 == jid) with
  | some e => some e.2
  | none => none

/-- Python `str(t)` for an integer. -/
def intToDigits (t : Int) : List Char :=
  if t < 0 then '-' :: natToDigits (-t).toNat else natToDigits t.toNat

/-- The generated job id `f"post_{post_id}_{int(scheduled_time.timestamp())}"`
(scheduler_service.py line 49); instants are UTC integers in this model. -/
def genJobId (post_id : Nat) (t : Int) : List Char :=
  ['p', 'o', 's', 't', '_'] ++ natToDigits post_id ++ '_' :: intToDigits t

namespace SchedulerService

/-- Embedding of `SchedulerService.schedule_post` (scheduler_service.py lines 24-72):
generates a job id when none (or an empty one) is supplied (`if not job_id:`),
normalises the fire time to UTC (instants are already UTC here) and registers
the timer with `replace_existing=True`.  The source's `except` branch is
unreachable in this model, so the returned job id is never `None`. -/
def schedule_post (reg : Registry) (post_id : Nat) (scheduled_time : Int)
    (job_id : Option (List Char)) : Registry × List Char :=
  let jid := match job_id with
    | none => genJobId post_id scheduled_time
    | some j => if j.isEmpty then genJobId post_id scheduled_time else j
  (insertReplace reg jid scheduled_time, jid)

end SchedulerService

/-- One iteration of the rehydration loop (main.py lines 102-123): clamp an
overdue fire time to `now + 5` seconds, re-register under the stored job id,
and write the returned id back to the ScheduledPost row when it differs from
the stored one. -/
def rehydrateStep (now : Int) (st : Registry × DB) (pair : PostRec × SchedRec) :
    Registry × DB :=
  let run_time := if pair.2.scheduled_for ≤ now then now + 5 else pair.2.scheduled_for
  let res := SchedulerService.schedule_post st.1 pair.1.id run_time pair.2.job_id
  if some res.2 == pair.2.job_id then (res.1, st.2)
  else (res.1, (PostService.update_scheduled_job_id st.2 pair.1.id res.2).1)

/-- Embedding of `rehydrate_scheduled_posts` (main.py lines 87-125): process the pending
pairs returned by `PostService.get_scheduled_posts` in order. -/
def rehydrate_scheduled_posts (pairs : List (PostRec × SchedRec)) (now : Int)
    (reg : Registry) (db : DB) : Registry × DB :=
  pairs.foldl (rehydrateStep now) (reg, db)

/- ## Scheduling Layer lemmas -/

lemma insertReplace_cons_of_ne (e : List Char × Int) (rest : Registry)
    (jid : List Char) (t : Int) (he : (e.1 == jid) = false) :
    insertReplace (e :: rest) jid t = e :: insertReplace rest jid t := by
  unfold insertReplace
  by_cases hr : rest.any (fun x => x.1 == jid) = true
  · rw [if_pos (by simp [List.any_cons, he, hr]), if_pos hr]
    simp only [List.map_cons]
    rw [if_neg (by simp [he])]
  · rw [if_neg (by simp [List.any_cons, he, hr]), if_neg hr]
    simp

lemma assocLookup_insertReplace (reg : Registry) (jid : List Char) (t : Int) :
    assocLookup (insertReplace reg jid t) jid = some t := by
  induction reg with
  | nil => simp [insertReplace, assocLookup]
  | cons e rest ih =>
    by_cases he : (e.1 == jid) = true
    · have hany : (e :: rest).any (fun x => x.1 == jid) = true := by
        simp [List.any_cons, he]
      unfold insertReplace
      rw [if_pos hany]
      simp only [List.map_cons, if_pos he]
      simp [assocLookup, List.find?_cons]
    · rw [Bool.not_eq_true] at he
      rw [insertReplace_cons_of_ne e rest jid t he]
      unfold assocLookup
      rw [List.find?_cons, he]
      exact ih

lemma filter_key_map_replace (rest : Registry) (jid : List Char) (t : Int)
    (h : ∀ x ∈ rest, (x.1 == jid) = false) :
    (rest.map (fun x => if x.1 == jid then (jid, t) else x)).filter
      (fun e => e.1 == jid) = [] := by
  induction rest with
  | nil => rfl
  | cons x xs ih =>
    have hx := h x (List.mem_cons_self _ _)
    simp only [List.map_cons, hx, Bool.false_eq_true, if_false, List.filter_cons, hx]
    exact ih (fun y hy => h y (List.mem_cons_of_mem _ hy))

lemma insertReplace_count (reg : Registry) (jid : List Char) (t : Int)
    (hp : List.Pairwise (fun a b : List Char × Int => a.1 ≠ b.1) reg) :
    ((insertReplace reg jid t).filter (fun e => e.1 == jid)).length = 1 := by
  induction reg with
  | nil => simp [insertReplace]
  | cons e rest ih =>
    obtain ⟨hhead, htail⟩ := List.pairwise_cons.mp hp
    by_cases he : (e.1 == jid) = true
    · have hrest : ∀ x ∈ rest, (x.1 == jid) = false := by
        intro x hx
        have hne : e.1 ≠ x.1 := hhead x hx
        have hej : e.1 = jid := beq_iff_eq.mp he
        rw [beq_eq_false_iff_ne]
        exact fun hcon => hne (by rw [hej, hcon])
      have hany : (e :: rest).any (fun x => x.1 == jid) = true := by
        simp [List.any_cons, he]
      unfold insertReplace
      rw [if_pos hany]
      simp only [List.map_cons, if_pos he, List.filter_cons]
      rw [filter_key_map_replace rest jid t hrest]
      simp
    · rw [Bool.not_eq_true] at he
      rw [insertReplace_cons_of_ne e rest jid t he, List.filter_cons, he]
      exact ih htail

lemma insertReplace_pairwise (reg : Registry) (jid : List Char) (t : Int)
    (hp : List.Pairwise (fun a b : List Char × Int => a.1 ≠ b.1) reg) :
    List.Pairwise (fun a b : List Char × Int => a.1 ≠ b.1)
      (insertReplace reg jid t) := by
  unfold insertReplace
  split
  · rename_i hany
    have hkey : ∀ x : List Char × Int,
        ((if x.1 == jid then (jid, t) else x) : List Char × Int).1 = x.1 := by
      intro x
      by_cases hx : (x.1 == jid) = true
      · rw [if_pos hx]
        exact (beq_iff_eq.mp hx).symm
      · rw [Bool.not_eq_true] at hx
        rw [hx]
        simp
    refine List.Pairwise.map _ ?_ hp
    intro a b hab
    rw [hkey a, hkey b]
    exact hab
  · rename_i hany
    rw [List.pairwise_append]
    refine ⟨hp, List.pairwise_singleton _ _, ?_⟩
    intro a ha b hb
    simp only [List.mem_singleton] at hb
    subst hb
    have hfalse : (reg.any fun e => e.1 == jid) = false :=
      Bool.eq_false_iff.mpr hany
    have hne := List.any_eq_false.mp hfalse a ha
    intro hcon
    apply hne
    rw [hcon]
    simp

lemma genJobId_ne_nil (post_id : Nat) (t : Int) : genJobId post_id t ≠ [] := by
  simp [genJobId]

/- ## Claim theorems: Scheduling Layer -/

/-- C6: the timer registry is idempotent per job id: two `schedule_post`
calls with the same explicit job id `X` (at times `t1` then `t2`) leave
exactly one timer registered under `X`, and it fires at `t2`.  The registry
invariant is that job ids are unique, which `insertReplace` preserves. -/
theorem scheduler_schedule_idempotent (reg : Registry) (pid1 pid2 : Nat)
    (X : List Char) (t1 t2 : Int) (hX : X.isEmpty = false)
    (hkeys : List.Pairwise (fun a b : List Char × Int => a.1 ≠ b.1) reg) :
    ((SchedulerService.schedule_post
        (SchedulerService.schedule_post reg pid1 t1 (some X)).1 pid2 t2 (some X)).1.filter
      (fun e => e.1 == X)).length = 1 ∧
    assocLookup (SchedulerService.schedule_post
        (SchedulerService.schedule_post reg pid1 t1 (some X)).1 pid2 t2 (some X)).1 X
      = some t2 := by
  have h1 : (SchedulerService.schedule_post reg pid1 t1 (some X)).1
      = insertReplace reg X t1 := by
    simp [SchedulerService.schedule_post, hX]
  have h2 : (SchedulerService.schedule_post
      (SchedulerService.schedule_post reg pid1 t1 (some X)).1 pid2 t2 (some X)).1
      = insertReplace (insertReplace reg X t1) X t2 := by
    rw [h1]
    simp [SchedulerService.schedule_post, hX]
  rw [h2]
  exact ⟨insertReplace_count _ X t2 (insertReplace_pairwise reg X t1 hkeys),
    assocLookup_insertReplace _ X t2⟩

theorem scheduler_schedule_idempotent_witness :
    ((SchedulerService.schedule_post
        (SchedulerService.schedule_post [] 1 10 (some ['X'])).1 1 20 (some ['X'])).1.filter
      (fun e => e.1 == ['X'])).length = 1 ∧
    assocLookup (SchedulerService.schedule_post
        (SchedulerService.schedule_post [] 1 10 (some ['X'])).1 1 20 (some ['X'])).1 ['X']
      = some 20 :=
  scheduler_schedule_idempotent [] 1 1 ['X'] 10 20 (by decide) List.Pairwise.nil

/-- C5: for an overdue pending pair (`scheduled_for ≤ now`) the rehydration
step registers the timer at `now + 5` (the grace delay) instead of the past
instant; when the row stores a (non-empty) job id the registration happens
under that original id and nothing is written back; when the row stores no
usable id the registry assigns `genJobId` and that new id is written back to
the ScheduledPost row.  `rehydrate_scheduled_posts` folds this step over all
pending pairs. -/
theorem rehydrate_overdue_clamped (now : Int) (reg : Registry) (db : DB)
    (post : PostRec) (sched : SchedRec) (hdue : sched.scheduled_for ≤ now) :
    (∀ j, sched.job_id = some j → j.isEmpty = false →
      assocLookup (rehydrateStep now (reg, db) (post, sched)).1 j = some (now + 5) ∧
      (rehydrateStep now (reg, db) (post, sched)).2 = db) ∧
    (sched.job_id = none ∨ sched.job_id = some [] →
      assocLookup (rehydrateStep now (reg, db) (post, sched)).1
          (genJobId post.id (now + 5)) = some (now + 5) ∧
      (rehydrateStep now (reg, db) (post, sched)).2
        = (PostService.update_scheduled_job_id db post.id (genJobId post.id (now + 5))).1) := by
  constructor
  · intro j hj hje
    simp only [rehydrateStep, SchedulerService.schedule_post, hj, hje, if_pos hdue,
      Bool.false_eq_true, if_false]
    rw [if_pos (by simp)]
    exact ⟨assocLookup_insertReplace reg j (now + 5), rfl⟩
  · intro hj
    rcases hj with hj | hj
    · simp only [rehydrateStep, SchedulerService.schedule_post, hj, if_pos hdue]
      rw [if_neg (by simp)]
      exact ⟨assocLookup_insertReplace reg _ (now + 5), rfl⟩
    · simp only [rehydrateStep, SchedulerService.schedule_post, hj, List.isEmpty_nil,
        if_pos hdue, if_true]
      rw [if_neg (by simp [genJobId_ne_nil post.id (now + 5)])]
      exact ⟨assocLookup_insertReplace reg _ (now + 5), rfl⟩

theorem rehydrate_overdue_clamped_witness :
    assocLookup (rehydrateStep 100 ([], ⟨[], [], [⟨3, 40, some ['j'], .pending⟩], 4⟩)
        (⟨3, ['x'], false, none, .scheduled, none, none, none⟩,
          ⟨3, 40, some ['j'], .pending⟩)).1 ['j'] = some 105 ∧
    (rehydrateStep 100 ([], ⟨[], [], [⟨3, 40, some ['j'], .pending⟩], 4⟩)
        (⟨3, ['x'], false, none, .scheduled, none, none, none⟩,
          ⟨3, 40, some ['j'], .pending⟩)).2 = ⟨[], [], [⟨3, 40, some ['j'], .pending⟩], 4⟩ :=
  (rehydrate_overdue_clamped 100 [] ⟨[], [], [⟨3, 40, some ['j'], .pending⟩], 4⟩
      ⟨3, ['x'], false, none, .scheduled, none, none, none⟩
      ⟨3, 40, some ['j'], .pending⟩ (by decide)).1 ['j'] rfl (by decide)

/- ## Weekly planning handlers (bot/handlers/posts.py) -/

/-- Python `date.weekday()` on a proleptic-Gregorian ordinal day number
(`date.toordinal()`): ordinal 1 — January 1 of year 1 — is a Monday, so
Monday = 0 .. Sunday = 6. -/
def pyWeekday (d : Int) : Int := (d - 1) % 7

/-- One offset of the loop of `_build_day_dates` (posts.py lines 169-173):
map the weekday of `start + offset` to that date the first time it is both
selected and not yet mapped.  The dict is an association list in insertion
order. -/
def dayStep (selected : List Int) (start : Int) (acc : List (Int × Int))
    (offset : Nat) : List (Int × Int) :=
  let day := start + offset
  let weekday := pyWeekday day
  if selected.contains weekday && !((acc.map Prod.fst).contains weekday) then
    acc ++ [(weekday, day)]
  else acc

/-- Embedding of `_build_day_dates(selected_days, start_date)` (posts.py lines 166-174). -/
def build_day_dates (selected : List Int) (start : Int) : List (Int × Int) :=
  (List.range 7).foldl (dayStep selected start) []

/-- Python `day_dates.get(day_idx)` on the association-list dict. -/
def dictLookup (m : List (Int × Int)) (k : Int) : Option Int :=
  match m.find? (fun e => e.1 == k) with
  | some e => some e.2
  | none => none

/- ## Day-date mapping lemmas -/

lemma pyWeekday_bounds (d : Int) : 0 ≤ pyWeekday d ∧ pyWeekday d < 7 := by
  unfold pyWeekday
  omega

/-- Among the offsets `0..6`, the weekday of `start + o` equals `w` exactly
for the single offset `(w - pyWeekday start) % 7`. -/
lemma weekday_match_iff (start w : Int) (o : Nat) (ho : o < 7)
    (hw1 : 0 ≤ w) (hw2 : w < 7) :
    pyWeekday (start + o) = w ↔ (o : Int) = (w - pyWeekday start) % 7 := by
  unfold pyWeekday
  omega

lemma dictLookup_append_ne (acc : List (Int × Int)) (k w v : Int) (h : k ≠ w) :
    dictLookup (acc ++ [(k, v)]) w = dictLookup acc w := by
  unfold dictLookup
  have hkv : ((k, v).1 == w) = false := by simpa using h
  rw [List.find?_append, List.find?_cons, hkv]
  simp

lemma dictLookup_append_self (acc : List (Int × Int)) (w v : Int)
    (hnone : dictLookup acc w = none) :
    dictLookup (acc ++ [(w, v)]) w = some v := by
  unfold dictLookup at hnone ⊢
  have hfnone : acc.find? (fun e => e.1 == w) = none := by
    cases hf : acc.find? (fun e => e.1 == w) with
    | some e => rw [hf] at hnone; exact absurd hnone (by simp)
    | none => rfl
  rw [List.find?_append, hfnone, List.find?_cons]
  simp

lemma keys_contains_eq_false (acc : List (Int × Int)) (w : Int)
    (h : dictLookup acc w = none) : ((acc.map Prod.fst).contains w) = false := by
  induction acc with
  | nil => rfl
  | cons e rest ih =>
    unfold dictLookup at h ih
    rw [List.find?_cons] at h
    cases he : (e.1 == w) with
    | true => rw [he] at h; exact absurd h (by simp)
    | false =>
      rw [he] at h
      have hr := ih h
      simp only [List.map_cons, List.contains_cons, hr, Bool.or_false]
      have : e.1 ≠ w := by simpa using he
      simpa using fun hcon => this hcon.symm

lemma dayStep_lookup_ne (selected : List Int) (start : Int) (acc : List (Int × Int))
    (o : Nat) (w : Int) (hne : pyWeekday (start + o) ≠ w) :
    dictLookup (dayStep selected start acc o) w = dictLookup acc w := by
  simp only [dayStep]
  split
  · exact dictLookup_append_ne acc _ w _ hne
  · rfl

lemma foldl_dayStep_lookup_ne (selected : List Int) (start : Int) (w : Int) :
    ∀ (offs : List Nat) (acc : List (Int × Int)),
      (∀ o ∈ offs, pyWeekday (start + o) ≠ w) →
      dictLookup (offs.foldl (dayStep selected start) acc) w = dictLookup acc w := by
  intro offs
  induction offs with
  | nil => intro acc _; rfl
  | cons o os ih =>
    intro acc hall
    rw [List.foldl_cons, ih _ (fun x hx => hall x (List.mem_cons_of_mem _ hx)),
      dayStep_lookup_ne selected start acc o w (hall o (List.mem_cons_self _ _))]

lemma int_contains_of_mem (l : List Int) (x : Int) (h : x ∈ l) :
    l.contains x = true := by
  induction l with
  | nil => simp at h
  | cons a as ih =>
    rcases List.mem_cons.mp h with rfl | hm
    · simp [List.contains_cons]
    · simp only [List.contains_cons, ih hm, Bool.or_true]

lemma dayStep_insert (selected : List Int) (start : Int) (acc : List (Int × Int))
    (o : Nat) (w : Int) (hsel : selected.contains w = true)
    (hwd : pyWeekday (start + o) = w) (hnone : dictLookup acc w = none) :
    dayStep selected start acc o = acc ++ [(w, start + o)] := by
  simp only [dayStep]
  rw [hwd, if_pos (by rw [hsel, keys_contains_eq_false acc w hnone]; rfl)]

/- ## Claim theorems: day-date mapping -/

/-- C8: for every selected weekday `w` (weekday indexes `0..6`), the day-date
mapping binds `w` to exactly the date `start + (w - weekday(start)) % 7`: the
unique date among the offsets `0..6` from the start date whose weekday is
`w`.  In particular, when the start date is a Wednesday and Monday is
selected, Monday is mapped to five days later (witness). -/
theorem build_day_dates_unique (selected : List Int) (start : Int) (w : Int)
    (hw : w ∈ selected) (hrange : ∀ v ∈ selected, 0 ≤ v ∧ v < 7) :
    dictLookup (build_day_dates selected start) w
      = some (start + (w - pyWeekday start) % 7) ∧
    pyWeekday (start + (w - pyWeekday start) % 7) = w ∧
    0 ≤ (w - pyWeekday start) % 7 ∧ (w - pyWeekday start) % 7 < 7 := by
  obtain ⟨hw1, hw2⟩ := hrange w hw
  obtain ⟨hs1, hs2⟩ := pyWeekday_bounds start
  have hb0 : 0 ≤ (w - pyWeekday start) % 7 := by omega
  have hb7 : (w - pyWeekday start) % 7 < 7 := by omega
  set oS : Nat := ((w - pyWeekday start) % 7).toNat with hoS
  have hcast : (oS : Int) = (w - pyWeekday start) % 7 := by omega
  have hoS7 : oS < 7 := by omega
  have hsplit : List.range 7 = (List.range oS ++ [oS]) ++ (List.range 7).drop (oS + 1) := by
    conv_lhs => rw [← List.take_append_drop (oS + 1) (List.range 7)]
    rw [List.take_range, show (oS + 1) ⊓ 7 = oS + 1 by omega, List.range_succ]
  have hmatch : ∀ o : Nat, o < 7 → (pyWeekday (start + o) = w ↔ o = oS) := by
    intro o ho
    rw [weekday_match_iff start w o ho hw1 hw2, ← hcast]
    omega
  have hmem1 : ∀ o ∈ List.range oS, pyWeekday (start + o) ≠ w := by
    intro o ho hcon
    have holt : o < oS := List.mem_range.mp ho
    have := (hmatch o (by omega)).mp hcon
    omega
  have hnotmem : oS ∉ (List.range 7).drop (oS + 1) := by
    have hnd := List.nodup_range 7
    rw [hsplit] at hnd
    have hdisj := (List.nodup_append.mp hnd).2.2
    exact hdisj (List.mem_append_right _ (List.mem_singleton_self _))
  have hmem2 : ∀ o ∈ (List.range 7).drop (oS + 1), pyWeekday (start + o) ≠ w := by
    intro o ho hcon
    have ho7 : o < 7 := List.mem_range.mp (List.mem_of_mem_drop ho)
    have : o = oS := (hmatch o ho7).mp hcon
    exact hnotmem (this ▸ ho)
  have hstep1 : dictLookup ((List.range oS).foldl (dayStep selected start) []) w = none :=
    foldl_dayStep_lookup_ne selected start w (List.range oS) [] hmem1
  have hstep2 : ([oS].foldl (dayStep selected start)
      ((List.range oS).foldl (dayStep selected start) []))
      = ((List.range oS).foldl (dayStep selected start) []) ++ [(w, start + oS)] := by
    rw [List.foldl_cons, List.foldl_nil]
    exact dayStep_insert selected start _ oS w (int_contains_of_mem selected w hw)
      ((hmatch oS hoS7).mpr rfl) hstep1
  have hlook : dictLookup (build_day_dates selected start) w = some (start + oS) := by
    unfold build_day_dates
    rw [hsplit, List.foldl_append, List.foldl_append, hstep2,
      foldl_dayStep_lookup_ne selected start w _ _ hmem2]
    exact dictLookup_append_self _ w _ hstep1
  refine ⟨?_, ?_, hb0, hb7⟩
  · rw [hlook, hcast]
  · have := (hmatch oS hoS7).mpr rfl
    rw [← hcast]
    exact this

theorem build_day_dates_unique_witness :
    dictLookup (build_day_dates [0] 3) 0 = some 8 := by
  have h := build_day_dates_unique [0] 3 0 (by decide) (by decide)
  rw [h.1]
  decide

/- ## Weekly wizard time collection (bot/handlers/posts.py) -/

/-- Python `text.split(",")`. -/
def splitOnComma : List Char → List (List Char)
  | [] => [[]]
  | c :: rest =>
    if c == ',' then [] :: splitOnComma rest
    else
      match splitOnComma rest with
      | [] => [[c]]
      | p :: ps => (c :: p) :: ps

/-- Numeric value of a digit string. -/
def digitsVal (ds : List Char) : Nat :=
  ds.foldl (fun a c => a * 10 + (c.toNat - '0'.toNat)) 0

/-- Model of `datetime.strptime(part, "%H:%M").time()` (posts.py line 185): at most
two digits of hour in `0..23`, a colon, at most two digits of minute in
`0..59`, and nothing else; any other shape raises `ValueError` (`none`). -/
def parseHHMM (l : List Char) : Option (Nat × Nat) :=
  let hd := (l.takeWhile Char.isDigit).take 2
  if hd.isEmpty then none
  else
    match l.drop hd.length with
    | ':' :: rest2 =>
      let md := (rest2.takeWhile Char.isDigit).take 2
      if md.isEmpty then none
      else if !(rest2.drop md.length).isEmpty then none
      else if digitsVal hd < 24 && digitsVal md < 60 then
        some (digitsVal hd, digitsVal md)
      else none
    | _ => none

/-- Parse every part in order, failing on the first bad one. -/
def parseAllTimes : List (List Char) → Option (List (Nat × Nat))
  | [] => some []
  | p :: ps =>
    match parseHHMM p, parseAllTimes ps with
    | some t, some ts => some (t :: ts)
    | _, _ => none

/-- Minutes-of-day key on which `datetime.time` values compare. -/
def timeKey (t : Nat × Nat) : Nat := t.1 * 60 + t.2

/-- Insertion sort by time-of-day; on duplicate-free inputs (the only ones
`_parse_times_input` sorts) this is exactly Python `sorted(times)`. -/
def insertSorted (t : Nat × Nat) : List (Nat × Nat) → List (Nat × Nat)
  | [] => [t]
  | x :: xs => if timeKey t ≤ timeKey x then t :: x :: xs else x :: insertSorted t xs

def sortTimes (l : List (Nat × Nat)) : List (Nat × Nat) := l.foldr insertSorted []

/-- Embedding of `_parse_times_input(text)` (posts.py lines 177-193): strip each
comma-separated part, drop empties, fail on no parts, parse each as
`%H:%M`, reject duplicates (`len(set(times)) != len(times)`), return the
sorted list. -/
def parse_times_input (text : List Char) : Option (List (Nat × Nat)) :=
  let parts := ((splitOnComma text).map pyStrip).filter (fun p => !p.isEmpty)
  if parts.isEmpty then none
  else
    match parseAllTimes parts with
    | none => none
    | some times => if times.Nodup then some (sortTimes times) else none

/-- Python dict assignment `m[k] = v` on an association list: replace the
binding if the key is present, append otherwise. -/
def upsert {κ β : Type} [BEq κ] (m : List (κ × β)) (k : κ) (v : β) :
    List (κ × β) :=
  if m.any (fun e => e.1 == k) then m.map (fun e => if e.1 == k then (k, v) else e)
  else m ++ [(k, v)]

/-- Python `m.get(k)` on an association list. -/
def lookupBy {κ β : Type} [BEq κ] (m : List (κ × β)) (k : κ) : Option β :=
  match m.find? (fun e => e.1 == k) with
  | some e => some e.2
  | none => none

/-- Zero-padded two-digit rendering, `"%02d"`. -/
def pad2 (n : Nat) : List Char :=
  if n < 10 then '0' :: natToDigits n else natToDigits n

/-- Python `t.strftime("%H:%M")` (posts.py line 366). -/
def fmtHHMM (t : Nat × Nat) : List Char := pad2 t.1 ++ ':' :: pad2 t.2

/-- The weekly-planning session state touched by `process_weekly_times`
(`context.user_data["weekly_plan"]`, posts.py lines 150-159 and 274-308). -/
structure WeeklyPlan where
  posts_per_day : Option Nat
  current_day_idx : Option Int
  day_dates : List (Int × Int)
  times_by_day : List (Int × List (List Char))
  day_index : Nat
deriving DecidableEq, Repr

/-- Embedding of `process_weekly_times` (posts.py lines 322-369), as a transition on the
session state; the boolean reports whether the input was accepted (the day's
times recorded and the cursor advanced) or rejected with a re-prompt.  The
current local instant is split into its date `today` and its time of day in
minutes `nowMinutes`; a slot whose `HH:MM` is at or before the current minute
compares `slot_dt <= now_local` in the source because slots carry zero
seconds. -/
def process_weekly_times (plan : WeeklyPlan) (text : List Char) (today : Int)
    (nowMinutes : Nat) : WeeklyPlan × Bool :=
  match parse_times_input text with
  | none => (plan, false)
  | some times =>
    if plan.posts_per_day ≠ some times.length then (plan, false)
    else
      match plan.current_day_idx with
      | none => (plan, false)
      | some day_idx =>
        match dictLookup plan.day_dates day_idx with
        | none => (plan, false)
        | some day_date =>
          if day_date = today ∧ ∃ t ∈ times, timeKey t ≤ nowMinutes then
            (plan, false)
          else
            ({ plan with
                times_by_day := upsert plan.times_by_day day_idx (times.map fmtHHMM),
                day_index := plan.day_index + 1 }, true)

/- ## Time-collection lemmas -/

lemma upsert_cons_of_ne {κ β : Type} [BEq κ] (e : κ × β) (rest : List (κ × β))
    (k : κ) (v : β) (he : (e.1 == k) = false) :
    upsert (e :: rest) k v = e :: upsert rest k v := by
  unfold upsert
  by_cases hr : rest.any (fun x => x.1 == k) = true
  · rw [if_pos (by simp [List.any_cons, he, hr]), if_pos hr]
    simp only [List.map_cons]
    rw [if_neg (by simp [he])]
  · rw [if_neg (by simp [List.any_cons, he, hr]), if_neg hr]
    simp

lemma lookupBy_upsert {κ β : Type} [BEq κ] [LawfulBEq κ] (m : List (κ × β))
    (k : κ) (v : β) : lookupBy (upsert m k v) k = some v := by
  induction m with
  | nil => simp [upsert, lookupBy]
  | cons e rest ih =>
    by_cases he : (e.1 == k) = true
    · have hany : (e :: rest).any (fun x => x.1 == k) = true := by
        simp [List.any_cons, he]
      unfold upsert
      rw [if_pos hany]
      simp only [List.map_cons, if_pos he]
      simp [lookupBy, List.find?_cons]
    · rw [Bool.not_eq_true] at he
      rw [upsert_cons_of_ne e rest k v he]
      unfold lookupBy
      rw [List.find?_cons, he]
      exact ih

/- ## Claim theorems: weekly time collection -/

/-- C9: in the weekly wizard's time-collection step, a malformed / duplicate
/ empty input (the parser returns nothing), a count different from the
configured posts-per-day, or — when the current day is today — any time not
strictly later than the current minute, leaves the session state exactly
unchanged and re-prompts (`false`); an input passing every check records
exactly N formatted times for the current day, advances the day cursor by
one, and changes nothing else. -/
theorem process_weekly_times_guard (plan : WeeklyPlan) (text : List Char)
    (today : Int) (nowMinutes : Nat) :
    (parse_times_input text = none →
      process_weekly_times plan text today nowMinutes = (plan, false)) ∧
    (∀ ts, parse_times_input text = some ts →
      plan.posts_per_day ≠ some ts.length →
      process_weekly_times plan text today nowMinutes = (plan, false)) ∧
    (∀ ts d, parse_times_input text = some ts →
      plan.posts_per_day = some ts.length →
      plan.current_day_idx = some d →
      dictLookup plan.day_dates d = some today →
      (∃ t ∈ ts, timeKey t ≤ nowMinutes) →
      process_weekly_times plan text today nowMinutes = (plan, false)) ∧
    (∀ ts d dd, parse_times_input text = some ts →
      plan.posts_per_day = some ts.length →
      plan.current_day_idx = some d →
      dictLookup plan.day_dates d = some dd →
      (dd = today → ∀ t ∈ ts, nowMinutes < timeKey t) →
      process_weekly_times plan text today nowMinutes
          = ({ plan with
              times_by_day := upsert plan.times_by_day d (ts.map fmtHHMM),
              day_index := plan.day_index + 1 }, true) ∧
        ∃ l, lookupBy (process_weekly_times plan text today nowMinutes).1.times_by_day d
            = some l ∧ l.length = ts.length) := by
  refine ⟨?_, ?_, ?_, ?_⟩
  · intro hparse
    simp only [process_weekly_times, hparse]
  · intro ts hparse hcount
    simp only [process_weekly_times, hparse]
    rw [if_pos hcount]
  · intro ts d hparse hcount hday hdate hpast
    simp only [process_weekly_times, hparse, hday, hdate]
    rw [if_neg (by simp [hcount]), if_pos ⟨by trivial, hpast⟩]
  · intro ts d dd hparse hcount hday hdate hok
    have hstep : process_weekly_times plan text today nowMinutes
        = ({ plan with
            times_by_day := upsert plan.times_by_day d (ts.map fmtHHMM),
            day_index := plan.day_index + 1 }, true) := by
      simp only [process_weekly_times, hparse, hday, hdate]
      rw [if_neg (by simp [hcount])]
      rw [if_neg ?hpast]
      case hpast =>
        rintro ⟨hdd, t, ht, hle⟩
        exact absurd hle (by have := hok hdd t ht; omega)
    refine ⟨hstep, ?_⟩
    rw [hstep]
    refine ⟨(ts.map fmtHHMM), ?_, by rw [List.length_map]⟩
    exact lookupBy_upsert plan.times_by_day d (ts.map fmtHHMM)

theorem process_weekly_times_guard_witness :
    process_weekly_times ⟨some 2, some 0, [(0, 10)], [], 0⟩
        ("10:00, 09:30".toList) 9 600
      = (⟨some 2, some 0, [(0, 10)], [(0, [fmtHHMM (9, 30), fmtHHMM (10, 0)])], 1⟩, true) := by
  have h := (process_weekly_times_guard ⟨some 2, some 0, [(0, 10)], [], 0⟩
      ("10:00, 09:30".toList) 9 600).2.2.2 [(9, 30), (10, 0)] 0 10
      (by decide) (by decide) (by decide) (by decide)
      (by intro hcon; exact absurd hcon (by decide))
  rw [h.1]
  decide
